import Mathlib

/-!
Shallow embedding of `src/jina/types/arrays/memmap.py` (`DocumentArrayMemmap`):
a disk-backed, append-oriented document store keeping an in-memory header
index (key -> (ordinal, page_offset, start, end)) over two files, `header.bin`
(fixed-width entries) and `body.bin` (concatenated payloads), with tombstone
deletion and compaction (`prune`).

Modelling conventions:
- numpy `int64` fields are `Int` (the tombstone sentinel is `(-1, -1, -1)`);
- byte files are `List Nat`; record keys (Python `str`, written fixed-width to
  disk) are byte strings `Key := List Nat`; the fixed key width and its
  padding/truncation are not exercised by any claim and are not modelled;
- `PAGE` is `mmap.ALLOCATIONGRANULARITY` of the target platform (4096 on Linux);
- Python `int(a / b)` truncates toward zero: `Int.tdiv`; Python `a % b` for a
  positive divisor is Euclidean: `Int.emod` (the `%` notation);
- a Python exception raised before any mutation is modelled by returning the
  state unchanged; the one partial-mutation path (`KeyError` inside `_del_doc`
  after the header write) is modelled by keeping exactly the writes that
  happened before the raise;
- in-memory Python dicts (`_header_map`, the buffer pool) are insertion-ordered
  association lists: inserting an existing key updates the value in place,
  inserting a fresh key appends.
-/

namespace Memmap

abbrev Bytes := List Nat

abbrev Key := List Nat

/-- `PAGE_SIZE = mmap.ALLOCATIONGRANULARITY` (4096 on the Linux target). -/
def PAGE : Int := 4096

/-- Modelled from the spec: the external record type (`jina.types.document.Document`
is not under `src/`); a record is a stable identity (`key`) plus opaque binary
content. -/
structure Document where
  id : Key
  content : Bytes
deriving DecidableEq

/-- Modelled from the spec: the external codec `encode(record) -> bytes`
(`Document.binary_str` is not under `src/`); assumed self-delimiting given a
length, realized as a length-prefixed id followed by the content. -/
def encode (d : Document) : Bytes :=
  d.id.length :: (d.id ++ d.content)

/-- Modelled from the spec: the external `decode(bytes) -> record`
(the `Document(buffer)` constructor is not under `src/`), inverse of `encode`. -/
def decode (b : Bytes) : Document :=
  ⟨(b.drop 1).take (b.headD 0), (b.drop 1).drop (b.headD 0)⟩

theorem decode_encode (d : Document) : decode (encode d) = d := by
  cases d with
  | mk i c => simp [decode, encode]

/-- One fixed-width on-disk header entry: key plus `(page_offset, start, end)`.
`HEADER_NONE_ENTRY = (-1, -1, -1)` marks a tombstone. -/
structure HEntry where
  key : Key
  p : Int
  r : Int
  e : Int
deriving DecidableEq

/-- `_del_doc` rewrites a slot as `(str_key, -1, -1, -1)`. -/
def tombstone (k : Key) : HEntry := ⟨k, -1, -1, -1⟩

/-- `np.array_equal((r[1], r[2], r[3]), HEADER_NONE_ENTRY)`. -/
def HEntry.isNone (h : HEntry) : Bool :=
  h.p = -1 && h.r = -1 && h.e = -1

/-- A live `_header_map` value: `(idx, page_offset, start, end)`. -/
structure MEntry where
  idx : Nat
  p : Int
  r : Int
  e : Int
deriving DecidableEq

/-- Python-dict lookup on an insertion-ordered association list. -/
def dlookup {α : Type} : List (Key × α) → Key → Option α
  | [], _ => none
  | (k', v) :: t, k => if k' = k then some v else dlookup t k

/-- Python-dict assignment `m[k] = v`: update in place if `k` is present
(keeping its insertion position), otherwise append at the end. -/
def dinsert {α : Type} (m : List (Key × α)) (k : Key) (v : α) : List (Key × α) :=
  if (dlookup m k).isSome then
    m.map (fun kv => if kv.1 = k then (k, v) else kv)
  else
    m ++ [(k, v)]

/-- Python-dict `m.pop(k)` / `del m[k]` (observable state; absent keys are a
no-op here, the corresponding `KeyError` is tracked at each call site). -/
def derase {α : Type} (m : List (Key × α)) (k : Key) : List (Key × α) :=
  m.filter (fun kv => decide (kv.1 ≠ k))

/-- The whole store state: on-disk header/body files plus the in-memory view
(`_header_map`, `_start`, the body file cursor, and the buffer pool). -/
structure DAM where
  headerPath : String
  bodyPath : String
  keyLength : Nat
  headerFile : List HEntry
  body : Bytes
  headerMap : List (Key × MEntry)
  start : Int
  cursor : Int
  pool : List (Key × Document)
deriving DecidableEq

/-- `self._header_entry_size = 24 + 4 * self._key_length` (bytes per header slot). -/
def DAM.entrySize (s : DAM) : Nat := 24 + 4 * s.keyLength

/-- The dict comprehension of `_load_header_body`: scan the header entries in
file order with their physical index, skipping tombstoned slots; duplicate keys
update in place (keeping the first position), exactly like a Python dict. -/
def parseHeaderAux (idx : Nat) (m : List (Key × MEntry)) :
    List HEntry → List (Key × MEntry)
  | [] => m
  | h :: t =>
    parseHeaderAux (idx + 1)
      (if h.isNone then m else dinsert m h.key ⟨idx, h.p, h.r, h.e⟩) t

def parseHeader (file : List HEntry) : List (Key × MEntry) :=
  parseHeaderAux 0 [] file

/-- `_load_header_body` (mode `'a'`): reparse the header file; the resume
offset `_start` is `tmp[-1][1] + tmp[-1][3]` (last physical entry's
`page_offset + end`) when the live map is nonempty, else `0`.  The code then
runs `self._body.seek(self._start)`; a negative `_start` would make that seek
raise `OSError`, which no theorem below relies on — the body-write cursor is
modelled as the seek target, and `writeAt` leaves the file unchanged on a
negative position. -/
def loadHeaderBody (s : DAM) : DAM :=
  let m := parseHeader s.headerFile
  let st : Int :=
    if m = [] then 0
    else ((s.headerFile.getLast?.map (fun h => h.p + h.e)).getD 0)
  { s with headerMap := m, start := st, cursor := st }

/-- `reload`: `_load_header_body()` then `buffer_pool.clear()`. -/
def DAM.reload (s : DAM) : DAM :=
  { loadHeaderBody s with pool := [] }

/-- `clear`: `_load_header_body('wb')` truncates both files (the buffer pool is
not cleared by the code). -/
def DAM.clear (s : DAM) : DAM :=
  loadHeaderBody { s with headerFile := [], body := [] }

/-- `__init__` on a fresh directory: empty files, loaded header, empty pool. -/
def mkDam (path : String) (keyLength : Nat) : DAM :=
  DAM.reload
    { headerPath := path ++ "/header.bin", bodyPath := path ++ "/body.bin",
      keyLength := keyLength, headerFile := [], body := [], headerMap := [],
      start := 0, cursor := 0, pool := [] }

/-- A positioned file write: overwrite bytes `[pos, pos + v.length)`, zero-fill
any gap past EOF.  A negative position is unreachable through the modelled
operations except after the degenerate reload analysed for C1, where Python's
`seek` would raise before writing; the file is left unchanged there. -/
def writeAt (b : Bytes) (pos : Int) (v : Bytes) : Bytes :=
  if pos < 0 then b
  else
    (b.take pos.toNat ++ List.replicate (pos.toNat - b.length) 0 ++ v)
      ++ b.drop (pos.toNat + v.length)

/-- `get_doc_by_key`'s read: `mmap(offset=p, length=e)[r:]`, i.e. the body
bytes `[p + r, p + e)`. -/
def readRegion (b : Bytes) (p r e : Int) : Bytes :=
  (b.take (p + e).toNat).drop (p + r).toNat

/-- `append(doc)`: compute `p = int(_start / PAGE_SIZE) * PAGE_SIZE`,
`r = _start % PAGE_SIZE`; write the header entry `(id, p, r, r + l)` at the end
of the header file; record `(len(_header_map), p, r, r + l)` in the map (the
ordinal is the map size before insertion); advance `_start` to `p + r + l`;
write the payload at the body file cursor; update the buffer pool. -/
def DAM.append (s : DAM) (d : Document) : DAM :=
  let value := encode d
  let l : Int := value.length
  let p : Int := (Int.tdiv s.start PAGE) * PAGE
  let r : Int := s.start % PAGE
  { s with
    headerFile := s.headerFile ++ [⟨d.id, p, r, r + l⟩]
    headerMap := dinsert s.headerMap d.id ⟨s.headerMap.length, p, r, r + l⟩
    start := p + r + l
    body := writeAt s.body s.cursor value
    cursor := s.cursor + l
    pool := dinsert s.pool d.id d }

/-- `extend(values)`: append each record in order (the `flush=False` batching
has no observable effect in this model). -/
def DAM.extend (s : DAM) (ds : List Document) : DAM :=
  ds.foldl DAM.append s

/-- `_del_doc(idx, str_key)` on a live key: tombstone the physical slot `idx`,
drop the key from the live map and from the buffer pool. -/
def DAM.delDoc (s : DAM) (idx : Nat) (k : Key) : DAM :=
  { s with
    headerFile := s.headerFile.set idx (tombstone k)
    headerMap := derase s.headerMap k
    pool := derase s.pool k }

/-- `__delitem__` with a string key: `_str2int_id` raises `KeyError` before any
mutation when the key is not live. -/
def DAM.delStr (s : DAM) (k : Key) : DAM :=
  match dlookup s.headerMap k with
  | none => s
  | some me => s.delDoc me.idx k

/-- `_int2str_id(i)`: read the key field of physical header slot `i`
(`IndexError` past EOF, modelled as `none`). -/
def int2strId (s : DAM) (i : Nat) : Option Key :=
  (s.headerFile.get? i).map HEntry.key

/-- `__delitem__` with an int key: resolve the physical slot's key, then
`_del_doc`.  When that key is not live, `pop` raises `KeyError` *after* the
tombstone was already written and flushed, so only the header write survives. -/
def DAM.delInt (s : DAM) (i : Nat) : DAM :=
  match int2strId s i with
  | none => s
  | some k =>
    if (dlookup s.headerMap k).isSome then s.delDoc i k
    else { s with headerFile := s.headerFile.set i (tombstone k) }

/-- `__setitem__` with an int key: bounds-check against the live map size,
resolve the old key from physical slot `i`, append the new record (fresh slot),
point the old key at the new record's map entry, and if the keys differ run
`del self[value.id]` (which tombstones the slot recorded for the *new* key). -/
def DAM.setInt (s : DAM) (i : Nat) (v : Document) : DAM :=
  if i < s.headerMap.length then
    match int2strId s i with
    | none => s
    | some strKey =>
      let s1 := s.append v
      let s2 :=
        { s1 with
          headerMap :=
            match dlookup s1.headerMap v.id with
            | some me => dinsert s1.headerMap strKey me
            | none => s1.headerMap
          pool := dinsert s1.pool strKey v }
      if strKey = v.id then s2 else s2.delStr v.id
  else s

/-- `__setitem__` with a string key: `value.id = key` then `append`. -/
def DAM.setStr (s : DAM) (k : Key) (v : Document) : DAM :=
  s.append { v with id := k }

/-- `__len__`: size of the live map. -/
def DAM.size (s : DAM) : Nat := s.headerMap.length

/-- `get_doc_by_key`: look the key up in the live map and decode its body
region; a missing key is `KeyError` (`none`). -/
def DAM.getDocByKey (s : DAM) (k : Key) : Option Document :=
  (dlookup s.headerMap k).map (fun me => decode (readRegion s.body me.p me.r me.e))

/-- `__getitem__` with a string key: buffer pool first, then the durable path. -/
def DAM.getStr (s : DAM) (k : Key) : Option Document :=
  match dlookup s.pool k with
  | some d => some d
  | none => s.getDocByKey k

/-- `__contains__`: membership in the live map only. -/
def DAM.containsKey (s : DAM) (k : Key) : Bool :=
  (dlookup s.headerMap k).isSome

/-- `__iter__`: yield `self[k]` for each live key in map order (the lookup of a
key taken from the map itself always succeeds). -/
def DAM.iterDocs (s : DAM) : List Document :=
  s.headerMap.filterMap (fun kv => s.getStr kv.1)

/-- The observable `(key, payload)` pairs of an iteration: each yielded
record's own identity and decoded content. -/
def DAM.iterPairs (s : DAM) : List (Key × Bytes) :=
  s.iterDocs.map (fun d => (d.id, d.content))

/-- `prune`: build a fresh store in a temporary directory, `extend` it with
every record yielded by iterating `self`, replace this store's files with the
fresh store's files, and `reload`. -/
def DAM.prune (s : DAM) : DAM :=
  let dam := (mkDam ("tmp") s.keyLength).extend s.iterDocs
  DAM.reload { s with headerFile := dam.headerFile, body := dam.body }

/-- `__eq__`: same type (there is a single store type here) and the same
header and body file paths; no stored content is consulted. -/
def DAM.beqPaths (a b : DAM) : Bool :=
  a.headerPath == b.headerPath && a.bodyPath == b.bodyPath

/-- Total on-disk footprint: header bytes (`entries * entry_size`) plus body bytes. -/
def DAM.diskBytes (s : DAM) : Nat :=
  s.headerFile.length * s.entrySize + s.body.length

/-! ### Python slices (`_iteridx_by_slice`) -/

/-- A Python `slice` object: each bound is `None` or an int. -/
structure PySlice where
  lo : Option Int
  hi : Option Int
  inc : Option Int
deriving DecidableEq

/-- Python `x or d` on an optional int: `None` and `0` are falsy. -/
def pyOr (v : Option Int) (d : Int) : Int :=
  match v with
  | none => d
  | some x => if x = 0 then d else x

/-- Number of elements of Python `range(start, stop, step)` (a zero step is
unreachable: `s.step or 1` coerces it to `1`). -/
def pyRangeLen (start stop step : Int) : Nat :=
  if 0 < step then
    if stop ≤ start then 0 else ((stop - start).toNat + (step.toNat - 1)) / step.toNat
  else if step < 0 then
    if start ≤ stop then 0 else ((start - stop).toNat + ((-step).toNat - 1)) / (-step).toNat
  else 0

/-- Python `range(start, stop, step)` as the list of its elements. -/
def pyRange (start stop step : Int) : List Int :=
  (List.range (pyRangeLen start stop step)).map (fun k : Nat => start + (k : Int) * step)

/-- The clamping block of `_iteridx_by_slice`, guarded by `start <= stop`. -/
def clampBounds (start1 stop1 len : Int) : Int × Int :=
  if start1 ≤ stop1 then
    if (start1 < 0 ∧ stop1 < 0) ∨ (start1 > len ∧ stop1 > len) then (0, 0)
    else if start1 < 0 ∧ stop1 > len then (0, len)
    else if start1 < 0 then (0, stop1)
    else if stop1 > len then (start1, len)
    else (start1, stop1)
  else (start1, stop1)

/-- `_iteridx_by_slice(s)`: defaults (`s.start or 0`, `s.stop` defaulting to
`len`, `s.step or 1`), translation of negative bounds within `-len`, clamping,
then `range(start, stop, step)`. -/
def iteridxBySlice (sl : PySlice) (n : Nat) : List Int :=
  let len : Int := n
  let start0 := pyOr sl.lo 0
  let stop0 := match sl.hi with | none => len | some v => v
  let step := pyOr sl.inc 1
  let stop1 := if 0 > stop0 ∧ stop0 ≥ -len then stop0 + len else stop0
  let start1 := if 0 > start0 ∧ start0 ≥ -len then start0 + len else start0
  pyRange (clampBounds start1 stop1 len).1 (clampBounds start1 stop1 len).2 step

/-! ### Operation sequences over a store -/

/-- The public mutating operations of `DocumentArrayMemmap`. -/
inductive Op where
  | app (d : Document)
  | delS (k : Key)
  | delI (i : Nat)
  | setI (i : Nat) (d : Document)
  | setS (k : Key) (d : Document)
  | rel
  | clr
deriving DecidableEq

def applyOp (s : DAM) : Op → DAM
  | .app d => s.append d
  | .delS k => s.delStr k
  | .delI i => s.delInt i
  | .setI i d => s.setInt i d
  | .setS k d => s.setStr k d
  | .rel => s.reload
  | .clr => s.clear

def runOps (s : DAM) (ops : List Op) : DAM := ops.foldl applyOp s

/-- The keys of the records an operation appends (`setS` rewrites the record's
id to the given key before appending). -/
def keysOfOp : Op → List Key
  | .app d => [d.id]
  | .setI _ d => [d.id]
  | .setS k _ => [k]
  | _ => []

/-- All keys ever appended by a sequence of operations. -/
def appendedKeys (ops : List Op) : List Key := (ops.map keysOfOp).flatten

/-! ### Well-formed stores -/

/-- A live map entry is consistent: nonnegative in-bounds offsets and a body
region that is a valid codec image whose decoded identity is the entry's key. -/
def MEntryOK (s : DAM) (k : Key) (me : MEntry) : Prop :=
  0 ≤ me.p ∧ 0 ≤ me.r ∧ me.r ≤ me.e ∧ (me.p + me.e).toNat ≤ s.body.length ∧
  encode (decode (readRegion s.body me.p me.r me.e)) = readRegion s.body me.p me.r me.e ∧
  (decode (readRegion s.body me.p me.r me.e)).id = k

/-- A consistent store: every live entry is `MEntryOK`, the pool agrees with
the durable read path, the live regions fit in the body, the live map is no
larger than the header file, and live keys are distinct.  All of this holds in
any store reached by appends and deletions alone; `__setitem__` by ordinal can
break the decoded-identity part (see C2/C3). -/
def WF (s : DAM) : Prop :=
  (∀ kv ∈ s.headerMap, MEntryOK s kv.1 kv.2) ∧
  (∀ kv ∈ s.pool, s.getDocByKey kv.1 = some kv.2) ∧
  ((s.headerMap.map (fun kv => (kv.2.e - kv.2.r).toNat)).sum ≤ s.body.length) ∧
  s.headerMap.length ≤ s.headerFile.length ∧
  (s.headerMap.map Prod.fst).Nodup

instance (s : DAM) (k : Key) (me : MEntry) : Decidable (MEntryOK s k me) := by
  unfold MEntryOK; infer_instance

instance (s : DAM) : Decidable (WF s) := by
  unfold WF; infer_instance

/-- The positional association view of a header file from slot `idx` on: the
live map a tombstone-free, duplicate-free header file parses to. -/
def assocFrom (idx : Nat) : List HEntry → List (Key × MEntry)
  | [] => []
  | h :: t => (h.key, ⟨idx, h.p, h.r, h.e⟩) :: assocFrom (idx + 1) t

def assocOfFile (file : List HEntry) : List (Key × MEntry) := assocFrom 0 file

/-- Header entries laid out back to back from byte offset `off`, one per
document: each entry's page-aligned region recovers that document's encoding
from `body`.  This is the shape `extend` produces on a fresh store. -/
def ChainFrom (body : Bytes) : Nat → List HEntry → List Document → Prop
  | _, [], [] => True
  | off, h :: hs, d :: ds =>
      h.key = d.id ∧ 0 ≤ h.p ∧ 0 ≤ h.r ∧ h.p + h.r = (off : Int) ∧
      h.e = h.r + ((encode d).length : Int) ∧
      readRegion body h.p h.r h.e = encode d ∧
      ChainFrom body (off + (encode d).length) hs ds
  | _, _, _ => False

/-! ### Concrete example states used by counterexamples and witnesses -/

def docA : Document := ⟨[10], [1, 2, 3]⟩

def docB : Document := ⟨[11], [9]⟩

def docC : Document := ⟨[12], [7, 7]⟩

def docB1 : Document := ⟨[20], [1]⟩

def docB2 : Document := ⟨[20], [2]⟩

/-- C1 scenario: append `docA`, delete it, reload (all slots tombstoned),
append `docB`. -/
def c1S1 : DAM := (mkDam ("c1") 36).append docA

def c1S2 : DAM := c1S1.delStr docA.id

def c1S3 : DAM := c1S2.reload

def c1S4 : DAM := c1S3.append docB

/-- C1 scenario, second shape: the last physical entry is tombstoned while an
earlier one stays live; reload derives `_start = (-1) + (-1) = -2`. -/
def c1T : DAM := (((mkDam ("c1b") 36).append docA).append docB).delStr docB.id

/-- C2/C3 base store: two live records. -/
def exAC : DAM := (mkDam ("ex") 36).extend [docA, docC]

/-- C2 counterexample store: two `__setitem__`-by-ordinal writes giving two
live entries whose payloads both decode to key `[20]`. -/
def c2S : DAM := (exAC.setInt 0 docB1).setInt 1 docB2

/-- C2 witness store: three appends then one deletion (a `WF` store with a
tombstone for `prune` to reclaim). -/
def c2W : DAM := ((mkDam ("w") 36).extend [docA, docB, docC]).delStr docB.id

/-- C4 witness state: a store whose write cursor sits 6 bytes before a page
boundary; `docD4` encodes to exactly 6 bytes. -/
def c4S : DAM :=
  { headerPath := "p/header.bin", bodyPath := "p/body.bin", keyLength := 36,
    headerFile := [], body := [], headerMap := [], start := 4090,
    cursor := 4090, pool := [] }

def docD4 : Document := ⟨[7], [1, 2, 3, 4]⟩

def docD4' : Document := ⟨[8], [1]⟩

/-! ## Helper lemmas about the dict model -/

theorem dlookup_cons_ne {α : Type} (k k' : Key) (v : α) (t : List (Key × α))
    (h : k' ≠ k) : dlookup ((k', v) :: t) k = dlookup t k := by
  simp [dlookup, h]

theorem dlookup_eq_none {α : Type} (m : List (Key × α)) (k : Key) :
    dlookup m k = none ↔ k ∉ m.map Prod.fst := by
  induction m with
  | nil => simp [dlookup]
  | cons kv t ih =>
    obtain ⟨k', v'⟩ := kv
    by_cases h : k' = k
    · subst h; simp [dlookup]
    · rw [dlookup_cons_ne _ _ _ _ h, List.map_cons, List.mem_cons, ih]
      constructor
      · intro hn hc
        rcases hc with hc | hc
        · exact h hc.symm
        · exact hn hc
      · intro hn hc
        exact hn (Or.inr hc)

theorem dlookup_isSome {α : Type} (m : List (Key × α)) (k : Key) :
    (dlookup m k).isSome = true ↔ k ∈ m.map Prod.fst := by
  induction m with
  | nil => simp [dlookup]
  | cons kv t ih =>
    obtain ⟨k', v'⟩ := kv
    by_cases h : k' = k
    · subst h; simp [dlookup]
    · rw [dlookup_cons_ne _ _ _ _ h, List.map_cons, List.mem_cons, ih]
      constructor
      · exact fun hm => Or.inr hm
      · intro hc
        rcases hc with hc | hc
        · exact absurd hc.symm h
        · exact hc

theorem dlookup_append {α : Type} (m m2 : List (Key × α)) (k : Key) :
    dlookup (m ++ m2) k = (dlookup m k).or (dlookup m2 k) := by
  induction m with
  | nil => simp [dlookup]
  | cons kv t ih =>
    obtain ⟨k', v'⟩ := kv
    by_cases h : k' = k
    · subst h; simp [dlookup]
    · rw [List.cons_append, dlookup_cons_ne _ _ _ _ h, dlookup_cons_ne _ _ _ _ h, ih]

theorem dlookup_replace_self {α : Type} (k : Key) (v : α) (m : List (Key × α)) :
    dlookup (m.map (fun kv => if kv.1 = k then (k, v) else kv)) k
      = (dlookup m k).map (fun _ => v) := by
  induction m with
  | nil => rfl
  | cons kv t ih =>
    obtain ⟨k', v'⟩ := kv
    by_cases h : k' = k
    · have e : (if (k', v').1 = k then (k, v) else (k', v')) = (k, v) := if_pos h
      rw [List.map_cons, e]
      subst h
      simp [dlookup]
    · have e : (if (k', v').1 = k then (k, v) else (k', v')) = (k', v') := if_neg h
      rw [List.map_cons, e, dlookup_cons_ne _ _ _ _ h, dlookup_cons_ne _ _ _ _ h, ih]

theorem dlookup_replace_ne {α : Type} (k k' : Key) (v : α) (m : List (Key × α))
    (h : k' ≠ k) :
    dlookup (m.map (fun kv => if kv.1 = k then (k, v) else kv)) k'
      = dlookup m k' := by
  induction m with
  | nil => rfl
  | cons kv t ih =>
    obtain ⟨k0, v0⟩ := kv
    by_cases hk : k0 = k
    · have e : (if (k0, v0).1 = k then (k, v) else (k0, v0)) = (k, v) := if_pos hk
      rw [List.map_cons, e, dlookup_cons_ne _ _ _ _ (Ne.symm h), ih,
        dlookup_cons_ne _ _ _ _ (hk ▸ Ne.symm h)]
    · have e : (if (k0, v0).1 = k then (k, v) else (k0, v0)) = (k0, v0) := if_neg hk
      rw [List.map_cons, e]
      by_cases hk' : k0 = k'
      · subst hk'; simp [dlookup]
      · rw [dlookup_cons_ne _ _ _ _ hk', dlookup_cons_ne _ _ _ _ hk', ih]

theorem dlookup_dinsert_self {α : Type} (m : List (Key × α)) (k : Key) (v : α) :
    dlookup (dinsert m k v) k = some v := by
  unfold dinsert
  by_cases h : (dlookup m k).isSome
  · obtain ⟨v', hv⟩ := Option.isSome_iff_exists.mp h
    simp [h, dlookup_replace_self, hv]
  · have hn : dlookup m k = none := Option.not_isSome_iff_eq_none.mp h
    rw [if_neg h, dlookup_append, hn]
    simp [dlookup]

theorem dlookup_dinsert_ne {α : Type} (m : List (Key × α)) (k k' : Key) (v : α)
    (h : k' ≠ k) : dlookup (dinsert m k v) k' = dlookup m k' := by
  unfold dinsert
  by_cases hs : (dlookup m k).isSome
  · simp [hs, dlookup_replace_ne _ _ _ _ h]
  · rw [if_neg hs, dlookup_append, dlookup_cons_ne _ _ _ _ (Ne.symm h)]
    simp [dlookup]

theorem dlookup_derase_self {α : Type} (m : List (Key × α)) (k : Key) :
    dlookup (derase m k) k = none := by
  induction m with
  | nil => simp [derase, dlookup]
  | cons kv t ih =>
    obtain ⟨k', v'⟩ := kv
    by_cases h : k' = k
    · simpa [derase, h] using ih
    · simpa [derase, dlookup, h] using ih

theorem dlookup_derase_ne {α : Type} (m : List (Key × α)) (k k' : Key)
    (h : k' ≠ k) : dlookup (derase m k) k' = dlookup m k' := by
  induction m with
  | nil => simp [derase, dlookup]
  | cons kv t ih =>
    obtain ⟨k0, v0⟩ := kv
    by_cases hk : k0 = k
    · have e : derase ((k0, v0) :: t) k = derase t k := by simp [derase, hk]
      rw [e, ih, dlookup_cons_ne _ _ _ _ (by rw [hk]; exact Ne.symm h)]
    · have e : derase ((k0, v0) :: t) k = (k0, v0) :: derase t k := by simp [derase, hk]
      rw [e]
      by_cases hk' : k0 = k'
      · subst hk'; simp [dlookup]
      · rw [dlookup_cons_ne _ _ _ _ hk', dlookup_cons_ne _ _ _ _ hk', ih]

theorem dinsert_keys_of_mem {α : Type} (m : List (Key × α)) (k : Key) (v : α)
    (h : (dlookup m k).isSome = true) :
    (dinsert m k v).map Prod.fst = m.map Prod.fst := by
  unfold dinsert
  simp only [h, if_true, List.map_map]
  apply List.map_congr_left
  intro kv _
  by_cases hk : kv.1 = k <;> simp [hk]

theorem dinsert_keys_of_not_mem {α : Type} (m : List (Key × α)) (k : Key) (v : α)
    (h : dlookup m k = none) :
    (dinsert m k v).map Prod.fst = m.map Prod.fst ++ [k] := by
  unfold dinsert
  simp [Option.isSome_iff_exists, h]

/-! ## Arithmetic of the page-aligned write path -/

/-- For a nonnegative cursor, `int(start / PAGE) * PAGE + start % PAGE = start`
(Python truncating division plus Python modulo recompose the cursor). -/
theorem tdiv_emod_decomp (a : Int) (h : 0 ≤ a) :
    Int.tdiv a PAGE * PAGE + a % PAGE = a := by
  obtain ⟨n, rfl⟩ := Int.eq_ofNat_of_zero_le h
  show Int.tdiv (n : Int) ((4096 : Nat) : Int) * ((4096 : Nat) : Int)
      + (n : Int) % ((4096 : Nat) : Int) = (n : Int)
  rw [← Int.ofNat_tdiv, ← Int.ofNat_emod]
  have hn : n / 4096 * 4096 + n % 4096 = n := by omega
  exact_mod_cast hn

/-! ## Claims -/

/-- C1 (the claim is the intent, the code a slip): the spec says the load-time
resume offset is the last physical entry's `page_offset + end` whether that
entry is live or tombstoned, so that appends never overwrite claimed regions.
Evaluation of the code's actual behaviour at two failing inputs:
(i) append `docA` (body bytes `[0, 5)` claimed), delete it, reload — the live
map is empty so `_start` is set to `0`, not the last entry's `page_offset +
end`, and the next append (`docB`) rewrites the first 3 of the 5 claimed
bytes; (ii) with an earlier entry still live and the *last* entry tombstoned,
reload derives `_start = (-1) + (-1) = -2`, an invalid resume offset (the
Python `seek` then raises), instead of resuming after the dead write. -/
theorem c1_resume_offset_code_bug :
    c1S2.headerFile = [tombstone docA.id] ∧
    c1S2.body = encode docA ∧
    c1S3.start = 0 ∧
    c1S4.headerFile.get? 1 = some ⟨docB.id, 0, 0, 3⟩ ∧
    c1S4.body.take 5 ≠ c1S2.body.take 5 ∧
    c1T.reload.start = -2 := by decide

/-- C8: `reload` is idempotent on the live mapping — with no intervening
mutation the header file is unchanged, so a second `_load_header_body` parses
the same bytes into the same live map. -/
theorem c8_reload_idempotent (s : DAM) :
    (s.reload.reload).headerMap = s.reload.headerMap := rfl

/-- C10: store equality is exactly sameness of the header and body file paths
(with a single store type, the `type(self) is type(other)` conjunct is
trivially true); in-memory and on-disk content play no role, since `a` and `b`
range over arbitrary states here. -/
theorem c10_eq_paths_only (a b : DAM) :
    DAM.beqPaths a b = true ↔
      (a.headerPath = b.headerPath ∧ a.bodyPath = b.bodyPath) := by
  simp [DAM.beqPaths]

/-- C5 counterexample: a sequence of two `append`s whose records share the key
`[0]`; neither key is ever tombstoned, so the claim as stated predicts
`len = 2`, but the live map holds one entry per distinct key and reports 1. -/
theorem c5_len_counterexample :
    ((mkDam ("s") 36).extend [⟨[0], []⟩, ⟨[0], [1]⟩]).size ≠ 2 := by decide

/-- C6: deleting a live key removes it from the live index: afterwards
`__contains__` is false and `__getitem__` finds the key neither in the buffer
pool nor in `_header_map` (a `KeyError`, modelled as `none`), while the body
file bytes are untouched. -/
theorem c6_delete_not_found (s : DAM) (k : Key) (h : s.containsKey k = true) :
    (s.delStr k).containsKey k = false ∧ (s.delStr k).getStr k = none ∧
    (s.delStr k).body = s.body := by
  unfold DAM.containsKey at h
  obtain ⟨me, hme⟩ := Option.isSome_iff_exists.mp h
  unfold DAM.delStr
  rw [hme]
  refine ⟨?_, ?_, rfl⟩
  · unfold DAM.containsKey DAM.delDoc
    simp [dlookup_derase_self]
  · unfold DAM.getStr DAM.delDoc DAM.getDocByKey
    simp [dlookup_derase_self]

theorem c6_delete_not_found_witness :
    exAC.containsKey docA.id = true ∧
    ((exAC.delStr docA.id).containsKey docA.id = false ∧
     (exAC.delStr docA.id).getStr docA.id = none ∧
     (exAC.delStr docA.id).body = exAC.body) :=
  ⟨by decide, c6_delete_not_found exAC docA.id (by decide)⟩

/-- C4: an append at nonnegative cursor `start` records the header entry
`(id, p, r, r + L)` with `p = int(start / PAGE) * PAGE`, `r = start % PAGE`,
`L` the payload length, and advances the cursor to `p + (r + L)`, which equals
`start + L`; consequently when `start + L` lands exactly on a page multiple
the next append records `page_offset = start + L` and intra-page start `0` —
the boundary case corrupts nothing. -/
theorem c4_append_offsets (s : DAM) (d d' : Document) (h : 0 ≤ s.start) :
    (s.append d).headerFile =
      s.headerFile ++ [⟨d.id, Int.tdiv s.start PAGE * PAGE, s.start % PAGE,
        s.start % PAGE + ((encode d).length : Int)⟩] ∧
    (s.append d).start =
      Int.tdiv s.start PAGE * PAGE + (s.start % PAGE + ((encode d).length : Int)) ∧
    (s.append d).start = s.start + ((encode d).length : Int) ∧
    ((s.start + ((encode d).length : Int)) % PAGE = 0 →
      ((s.append d).append d').headerFile.getLast? =
        some ⟨d'.id, s.start + ((encode d).length : Int), 0,
          ((encode d').length : Int)⟩) := by
  have hpr : Int.tdiv s.start PAGE * PAGE + s.start % PAGE = s.start :=
    tdiv_emod_decomp s.start h
  have hstart : (s.append d).start = s.start + ((encode d).length : Int) := by
    show Int.tdiv s.start PAGE * PAGE + s.start % PAGE + ((encode d).length : Int)
        = s.start + ((encode d).length : Int)
    rw [hpr]
  have hassoc : (s.append d).start =
      Int.tdiv s.start PAGE * PAGE + (s.start % PAGE + ((encode d).length : Int)) := by
    show Int.tdiv s.start PAGE * PAGE + s.start % PAGE + ((encode d).length : Int) = _
    rw [add_assoc]
  refine ⟨rfl, hassoc, hstart, ?_⟩
  intro hb
  have ht : 0 ≤ s.start + ((encode d).length : Int) := by omega
  have hpr2 := tdiv_emod_decomp (s.start + ((encode d).length : Int)) ht
  rw [hb, add_zero] at hpr2
  show ((s.append d).headerFile ++
      [(⟨d'.id, Int.tdiv (s.append d).start PAGE * PAGE, (s.append d).start % PAGE,
        (s.append d).start % PAGE + ((encode d').length : Int)⟩ : HEntry)]).getLast?
      = some ⟨d'.id, s.start + ((encode d).length : Int), 0, ((encode d').length : Int)⟩
  rw [List.getLast?_concat, hstart, hb, hpr2, zero_add]

theorem c4_append_offsets_witness :
    (0 : Int) ≤ c4S.start ∧
    (c4S.append docD4).headerFile
      = c4S.headerFile ++ [(⟨docD4.id, 0, 4090, 4096⟩ : HEntry)] ∧
    (c4S.append docD4).start = 4096 ∧
    (c4S.start + ((encode docD4).length : Int)) % PAGE = 0 ∧
    ((c4S.append docD4).append docD4').headerFile.getLast?
      = some ⟨docD4'.id, 4096, 0, 3⟩ := by
  have h := c4_append_offsets c4S docD4 docD4' (by decide)
  exact ⟨by decide, h.1, h.2.2.1, by decide, h.2.2.2 (by decide)⟩

/-- Appending keeps the live keys nodup and accumulates the document ids:
the key multiset view needed for the corrected C5. -/
theorem extend_keys (ds : List Document) : ∀ (s : DAM),
    ((s.headerMap.map Prod.fst).Nodup) →
    ((s.extend ds).headerMap.map Prod.fst).Nodup ∧
    ((s.extend ds).headerMap.map Prod.fst).toFinset
      = (s.headerMap.map Prod.fst).toFinset ∪ (ds.map Document.id).toFinset := by
  induction ds with
  | nil => intro s hs; exact ⟨hs, by simp [DAM.extend]⟩
  | cons d ds ih =>
    intro s hs
    have hstep : (s.extend (d :: ds)) = ((s.append d).extend ds) := rfl
    by_cases h : (dlookup s.headerMap d.id).isSome
    · have hk : (s.append d).headerMap.map Prod.fst = s.headerMap.map Prod.fst := by
        show (dinsert s.headerMap d.id _).map Prod.fst = _
        exact dinsert_keys_of_mem _ _ _ h
      have hmem : d.id ∈ s.headerMap.map Prod.fst := (dlookup_isSome _ _).mp h
      obtain ⟨h1, h2⟩ := ih (s.append d) (by rw [hk]; exact hs)
      refine ⟨h1, ?_⟩
      rw [hstep, h2, hk, List.map_cons, List.toFinset_cons]
      rw [Finset.union_insert, Finset.insert_eq_self.mpr
        (Finset.mem_union_left _ (List.mem_toFinset.mpr hmem))]
    · have hn : dlookup s.headerMap d.id = none := Option.not_isSome_iff_eq_none.mp h
      have hk : (s.append d).headerMap.map Prod.fst
          = s.headerMap.map Prod.fst ++ [d.id] := by
        show (dinsert s.headerMap d.id _).map Prod.fst = _
        exact dinsert_keys_of_not_mem _ _ _ hn
      have hmem : d.id ∉ s.headerMap.map Prod.fst := (dlookup_eq_none _ _).mp hn
      have hnodup : ((s.append d).headerMap.map Prod.fst).Nodup := by
        rw [hk]
        exact List.Nodup.append hs (List.nodup_singleton _)
          (by simpa [List.disjoint_singleton] using hmem)
      obtain ⟨h1, h2⟩ := ih (s.append d) hnodup
      refine ⟨h1, ?_⟩
      have e1 : ([d.id] : List Key).toFinset = {d.id} := by simp
      rw [hstep, h2, hk, List.toFinset_append, e1, Finset.union_assoc,
        List.map_cons, List.toFinset_cons, ← Finset.insert_eq]

/-- C5 (amended): after any sequence of `append`s on a fresh store, `len`
reports the number of *distinct keys* among the appended records (none of
which are tombstoned); appending a record whose key is already live updates
that entry in place rather than adding a live record. -/
theorem c5_len_amended (ds : List Document) :
    ((mkDam ("s") 36).extend ds).size = (ds.map Document.id).toFinset.card := by
  obtain ⟨h1, h2⟩ := extend_keys ds (mkDam ("s") 36) (by decide)
  have hlen : ((mkDam ("s") 36).extend ds).size
      = (((mkDam ("s") 36).extend ds).headerMap.map Prod.fst).length := by
    unfold DAM.size
    rw [List.length_map]
  rw [hlen, ← List.toFinset_card_of_nodup h1, h2]
  have hbase : ((mkDam ("s") 36).headerMap.map Prod.fst).toFinset = ∅ := by decide
  rw [hbase, Finset.empty_union]

/-- C3 counterexample: a store with live keys `[10]` (ordinal 0) and `[12]`;
`__setitem__(0, docB)` with `docB.id = [11] ≠ [10]`.  The claim as stated says
the *old* key's entry is tombstoned (its slot becomes the tombstoned one), but
afterwards physical slot 0 still holds the old record `([10], 0, 0, 5)`
untombstoned, the old key `[10]` is still live (now mapped to the fresh
entry's location `(2, 0, 9, 12)`), and it is the *new* key `[11]` that is
gone, its recorded slot 2 holding the tombstone. -/
theorem c3_set_by_ordinal_counterexample :
    (exAC.setInt 0 docB).headerFile.get? 0 = some ⟨docA.id, 0, 0, 5⟩ ∧
    (exAC.setInt 0 docB).headerFile.get? 2 = some (tombstone docB.id) ∧
    dlookup (exAC.setInt 0 docB).headerMap docA.id = some ⟨2, 0, 9, 12⟩ ∧
    dlookup (exAC.setInt 0 docB).headerMap docB.id = none := by decide

/-- C3 (amended): for an in-range ordinal `i` whose physical slot holds `he`,
`__setitem__(i, v)` with `he.key ≠ v.id` appends `v` as a fresh physical entry,
maps the *old* key `he.key` to the fresh entry's location, and then deletes
`v.id` — the *new* key — from the live mapping, writing the tombstone into the
header slot recorded for the fresh entry (index = live-map size before the
append); the old key's own slot `i` is left unchanged and the old key stays
live. -/
theorem c3_set_by_ordinal_amended (s : DAM) (i : Nat) (v : Document) (he : HEntry)
    (h1 : i < s.headerMap.length) (h2 : s.headerFile.get? i = some he)
    (h3 : he.key ≠ v.id) :
    dlookup (s.setInt i v).headerMap he.key
      = some ⟨s.headerMap.length, Int.tdiv s.start PAGE * PAGE, s.start % PAGE,
          s.start % PAGE + ((encode v).length : Int)⟩ ∧
    dlookup (s.setInt i v).headerMap v.id = none ∧
    (s.setInt i v).headerFile
      = (s.headerFile ++ [(⟨v.id, Int.tdiv s.start PAGE * PAGE, s.start % PAGE,
          s.start % PAGE + ((encode v).length : Int)⟩ : HEntry)]).set s.headerMap.length
          (tombstone v.id) ∧
    (s.setInt i v).headerFile.get? i = s.headerFile.get? i ∧
    (s.setInt i v).body = writeAt s.body s.cursor (encode v) := by
  have hstr : int2strId s i = some he.key := by rw [int2strId, h2]; rfl
  set me : MEntry := ⟨s.headerMap.length, Int.tdiv s.start PAGE * PAGE, s.start % PAGE,
    s.start % PAGE + ((encode v).length : Int)⟩ with hmedef
  have hlook1 : dlookup (s.append v).headerMap v.id = some me :=
    dlookup_dinsert_self _ _ _
  have hlook2 : dlookup (dinsert (s.append v).headerMap he.key me) v.id = some me := by
    rw [dlookup_dinsert_ne _ _ _ _ (Ne.symm h3)]
    exact hlook1
  have hfull : s.setInt i v = { s.append v with
      headerFile := ((s.append v).headerFile).set s.headerMap.length (tombstone v.id),
      headerMap := derase (dinsert (s.append v).headerMap he.key me) v.id,
      pool := derase (dinsert (s.append v).pool he.key v) v.id } := by
    unfold DAM.setInt
    rw [if_pos h1, hstr]
    simp only [hlook1]
    rw [if_neg h3]
    unfold DAM.delStr
    rw [hlook2]
    rfl
  have hlt : i < s.headerFile.length := by
    rcases List.get?_eq_some.mp h2 with ⟨hl, _⟩
    exact hl
  refine ⟨?_, ?_, ?_, ?_, ?_⟩
  · rw [hfull]
    show dlookup (derase (dinsert (s.append v).headerMap he.key me) v.id) he.key = some me
    rw [dlookup_derase_ne _ _ _ h3]
    exact dlookup_dinsert_self _ _ _
  · rw [hfull]
    exact dlookup_derase_self _ _
  · rw [hfull]
    rfl
  · rw [hfull]
    show (((s.append v).headerFile).set s.headerMap.length (tombstone v.id)).get? i
        = s.headerFile.get? i
    rw [List.get?_set_ne _ _ (Nat.ne_of_lt h1).symm]
    exact List.get?_append hlt
  · rw [hfull]
    rfl

theorem c3_set_by_ordinal_witness :
    0 < exAC.headerMap.length ∧
    exAC.headerFile.get? 0 = some ⟨docA.id, 0, 0, 5⟩ ∧
    docA.id ≠ docB.id ∧
    (dlookup (exAC.setInt 0 docB).headerMap docA.id = some ⟨2, 0, 9, 12⟩ ∧
     dlookup (exAC.setInt 0 docB).headerMap docB.id = none ∧
     (exAC.setInt 0 docB).headerFile
       = (exAC.headerFile ++ [(⟨docB.id, 0, 9, 12⟩ : HEntry)]).set 2 (tombstone docB.id) ∧
     (exAC.setInt 0 docB).headerFile.get? 0 = exAC.headerFile.get? 0 ∧
     (exAC.setInt 0 docB).body = writeAt exAC.body exAC.cursor (encode docB)) :=
  ⟨by decide, by decide, by decide,
    c3_set_by_ordinal_amended exAC 0 docB ⟨docA.id, 0, 0, 5⟩ (by decide) (by decide)
      (by decide)⟩

/-- Every element of a positive-step Python range lies in `[start, stop)`. -/
theorem pyRange_mem (a b st : Int) (hst : 0 < st) :
    ∀ i ∈ pyRange a b st, a ≤ i ∧ i < b := by
  intro i hi
  unfold pyRange pyRangeLen at hi
  rw [if_pos hst] at hi
  by_cases hba : b ≤ a
  · rw [if_pos hba] at hi
    simp at hi
  · rw [if_neg hba] at hi
    rw [List.mem_map] at hi
    obtain ⟨k, hk, hik⟩ := hi
    rw [List.mem_range] at hk
    subst hik
    have hknn : (0 : Int) ≤ (k : Int) * st :=
      mul_nonneg (Int.natCast_nonneg k) (le_of_lt hst)
    refine ⟨by linarith, ?_⟩
    have hk1 : k + 1 ≤ ((b - a).toNat + (st.toNat - 1)) / st.toNat := hk
    have h2 : (k + 1) * st.toNat
        ≤ (((b - a).toNat + (st.toNat - 1)) / st.toNat) * st.toNat :=
      Nat.mul_le_mul_right _ hk1
    rw [add_one_mul] at h2
    have h3 : (((b - a).toNat + (st.toNat - 1)) / st.toNat) * st.toNat
        ≤ (b - a).toNat + (st.toNat - 1) := Nat.div_mul_le_self _ _
    have h4 : k * st.toNat + st.toNat ≤ (b - a).toNat + (st.toNat - 1) :=
      le_trans h2 h3
    have hstpos : 1 ≤ st.toNat := by omega
    have h5 : k * st.toNat < (b - a).toNat := by omega
    have h6 : ((k * st.toNat : Nat) : Int) < (((b - a).toNat : Nat) : Int) := by
      exact_mod_cast h5
    rw [Int.toNat_of_nonneg (by omega : (0 : Int) ≤ b - a)] at h6
    push_cast at h6
    rw [Int.toNat_of_nonneg (le_of_lt hst)] at h6
    linarith

/-- The clamped bounds either give an empty range or lie within `[0, len]`. -/
theorem clampBounds_ok (a b len : Int) :
    (clampBounds a b len).2 ≤ (clampBounds a b len).1 ∨
    (0 ≤ (clampBounds a b len).1 ∧ (clampBounds a b len).2 ≤ len) := by
  unfold clampBounds
  split_ifs <;> simp <;> omega

/-- Any positive-step range over clamped bounds stays within `[0, n)`. -/
theorem slice_bounds_aux (a b : Int) (n : Nat) (st : Int) (hst : 0 < st) :
    ∀ i ∈ pyRange (clampBounds a b (n : Int)).1 (clampBounds a b (n : Int)).2 st,
      0 ≤ i ∧ i < (n : Int) := by
  intro i hi
  have hmem := pyRange_mem _ _ _ hst i hi
  rcases clampBounds_ok a b (n : Int) with hcl | hcl
  · exact absurd (lt_of_le_of_lt hmem.1 hmem.2) (not_lt.mpr hcl)
  · exact ⟨le_trans hcl.1 hmem.1, lt_of_lt_of_le hmem.2 hcl.2⟩

/-- C9 counterexample: with a negative step the computed index range escapes
the valid bounds: for a store of length 2, the slice `[10::-1]` yields the
index 10 (and more), and `_int2str_id(10)` reads past the end of the header
(an `IndexError`). -/
theorem c9_slice_counterexample :
    (10 : Int) ∈ iteridxBySlice ⟨some 10, none, some (-1)⟩ 2 ∧
    ¬((10 : Int) < (2 : Int)) := by decide

/-- C9 (amended): for every slice whose effective step is positive (`None` and
`0` are coerced to `1`), every index produced by `_iteridx_by_slice` lies in
`[0, len)`: negative bounds within `-len` are translated, out-of-order or
fully-out-of-range bounds give an empty range, and partial overshoot is
clamped — so get-by-slice never goes out of range.  For a negative step the
bounds are *not* clamped and indices past the end can be produced. -/
theorem c9_slice_amended (sl : PySlice) (n : Nat) (h : 0 < pyOr sl.inc 1) :
    ((iteridxBySlice sl n).all (fun i => decide (0 ≤ i ∧ i < (n : Int)))) = true := by
  rw [List.all_eq_true]
  intro i hi
  rw [decide_eq_true_iff]
  simp only [iteridxBySlice] at hi
  exact slice_bounds_aux _ _ _ _ h i hi

theorem c9_slice_witness :
    0 < pyOr (⟨some (-2), none, none⟩ : PySlice).inc 1 ∧
    ((iteridxBySlice ⟨some (-2), none, none⟩ 5).all
      (fun i => decide (0 ≤ i ∧ i < ((5 : Nat) : Int)))) = true :=
  ⟨by decide, c9_slice_amended ⟨some (-2), none, none⟩ 5 (by decide)⟩

/-! ## Keys ever appended (C7) -/

theorem dinsert_keys_mem {α : Type} (m : List (Key × α)) (k : Key) (v : α)
    (k' : Key) (h : k' ∈ (dinsert m k v).map Prod.fst) :
    k' ∈ m.map Prod.fst ∨ k' = k := by
  by_cases hs : (dlookup m k).isSome
  · rw [dinsert_keys_of_mem _ _ _ hs] at h
    exact Or.inl h
  · rw [dinsert_keys_of_not_mem _ _ _ (Option.not_isSome_iff_eq_none.mp hs)] at h
    rcases List.mem_append.mp h with h | h
    · exact Or.inl h
    · simp at h
      exact Or.inr h

theorem derase_keys_subset {α : Type} (m : List (Key × α)) (k k' : Key)
    (h : k' ∈ (derase m k).map Prod.fst) : k' ∈ m.map Prod.fst := by
  rw [List.mem_map] at h ⊢
  obtain ⟨kv, hkv, rfl⟩ := h
  exact ⟨kv, List.mem_of_mem_filter hkv, rfl⟩

theorem set_keys_mem (file : List HEntry) (i : Nat) (k k' : Key)
    (h : k' ∈ (file.set i (tombstone k)).map HEntry.key) :
    k' ∈ file.map HEntry.key ∨ k' = k := by
  rw [List.mem_map] at h
  obtain ⟨he, hhe, rfl⟩ := h
  rcases List.mem_or_eq_of_mem_set hhe with hm | hm
  · exact Or.inl (List.mem_map.mpr ⟨he, hm, rfl⟩)
  · subst hm
    exact Or.inr rfl

theorem parseHeaderAux_keys (file : List HEntry) : ∀ (idx : Nat)
    (m : List (Key × MEntry)) (k : Key),
    k ∈ (parseHeaderAux idx m file).map Prod.fst →
    k ∈ m.map Prod.fst ∨ k ∈ file.map HEntry.key := by
  induction file with
  | nil => exact fun idx m k h => Or.inl h
  | cons h t ih =>
    intro idx m k hk
    rcases ih (idx + 1) (if h.isNone then m else dinsert m h.key ⟨idx, h.p, h.r, h.e⟩)
        k hk with h1 | h1
    · by_cases hno : h.isNone
      · rw [if_pos hno] at h1
        exact Or.inl h1
      · rw [if_neg hno] at h1
        rcases dinsert_keys_mem _ _ _ _ h1 with h2 | h2
        · exact Or.inl h2
        · exact Or.inr (by rw [List.map_cons, h2]; exact List.mem_cons_self _ _)
    · exact Or.inr (by rw [List.map_cons]; exact List.mem_cons_of_mem _ h1)

theorem int2strId_mem (s : DAM) (i : Nat) (k0 : Key)
    (h : int2strId s i = some k0) : k0 ∈ s.headerFile.map HEntry.key := by
  unfold int2strId at h
  cases hg : s.headerFile.get? i with
  | none => rw [hg] at h; cases h
  | some he =>
    rw [hg] at h
    have hke : he.key = k0 := by
      simpa using h
    exact hke ▸ List.mem_map.mpr ⟨he, List.get?_mem hg, rfl⟩

theorem append_keys_mem (t : DAM) (d : Document) (B : List Key)
    (hm : ∀ k ∈ t.headerMap.map Prod.fst, k ∈ B)
    (hf : ∀ k ∈ t.headerFile.map HEntry.key, k ∈ B) :
    (∀ k ∈ (t.append d).headerMap.map Prod.fst, k ∈ B ++ [d.id]) ∧
    (∀ k ∈ (t.append d).headerFile.map HEntry.key, k ∈ B ++ [d.id]) := by
  constructor
  · intro k hk
    rcases dinsert_keys_mem t.headerMap d.id _ k hk with h1 | h1
    · exact List.mem_append_left _ (hm k h1)
    · exact h1 ▸ List.mem_append_right _ (List.mem_singleton_self _)
  · intro k hk
    have he : (t.append d).headerFile.map HEntry.key
        = t.headerFile.map HEntry.key ++ [d.id] := by
      show (t.headerFile ++ [_]).map HEntry.key = _
      rw [List.map_append]
      rfl
    rw [he] at hk
    rcases List.mem_append.mp hk with h1 | h1
    · exact List.mem_append_left _ (hf k h1)
    · exact List.mem_append_right _ h1

theorem delStr_keys (t : DAM) (k0 : Key) (B : List Key)
    (hm : ∀ k ∈ t.headerMap.map Prod.fst, k ∈ B)
    (hf : ∀ k ∈ t.headerFile.map HEntry.key, k ∈ B) :
    (∀ k ∈ (t.delStr k0).headerMap.map Prod.fst, k ∈ B) ∧
    (∀ k ∈ (t.delStr k0).headerFile.map HEntry.key, k ∈ B) := by
  unfold DAM.delStr
  cases hl : dlookup t.headerMap k0 with
  | none => exact ⟨hm, hf⟩
  | some me =>
    have hk0 : k0 ∈ B := hm k0 ((dlookup_isSome _ _).mp (by rw [hl]; rfl))
    constructor
    · exact fun k hk => hm k (derase_keys_subset _ _ _ hk)
    · intro k hk
      rcases set_keys_mem _ _ _ _ hk with h1 | h1
      · exact hf k h1
      · exact h1 ▸ hk0

theorem delInt_keys (t : DAM) (i : Nat) (B : List Key)
    (hm : ∀ k ∈ t.headerMap.map Prod.fst, k ∈ B)
    (hf : ∀ k ∈ t.headerFile.map HEntry.key, k ∈ B) :
    (∀ k ∈ (t.delInt i).headerMap.map Prod.fst, k ∈ B) ∧
    (∀ k ∈ (t.delInt i).headerFile.map HEntry.key, k ∈ B) := by
  cases hl : int2strId t i with
  | none =>
    have hred : t.delInt i = t := by
      unfold DAM.delInt
      rw [hl]
    rw [hred]
    exact ⟨hm, hf⟩
  | some k0 =>
    have hk0 : k0 ∈ B := hf k0 (int2strId_mem t i k0 hl)
    by_cases hs : (dlookup t.headerMap k0).isSome
    · have hred : t.delInt i = t.delDoc i k0 := by
        unfold DAM.delInt
        rw [hl]
        exact if_pos hs
      rw [hred]
      constructor
      · exact fun k hk => hm k (derase_keys_subset _ _ _ hk)
      · intro k hk
        rcases set_keys_mem _ _ _ _ hk with h1 | h1
        · exact hf k h1
        · exact h1 ▸ hk0
    · have hred : t.delInt i
          = { t with headerFile := t.headerFile.set i (tombstone k0) } := by
        unfold DAM.delInt
        rw [hl]
        exact if_neg hs
      rw [hred]
      refine ⟨hm, ?_⟩
      intro k hk
      rcases set_keys_mem _ _ _ _ hk with h1 | h1
      · exact hf k h1
      · exact h1 ▸ hk0

theorem setInt_keys (s : DAM) (i : Nat) (v : Document) (B : List Key)
    (hm : ∀ k ∈ s.headerMap.map Prod.fst, k ∈ B)
    (hf : ∀ k ∈ s.headerFile.map HEntry.key, k ∈ B) :
    (∀ k ∈ (s.setInt i v).headerMap.map Prod.fst, k ∈ B ++ [v.id]) ∧
    (∀ k ∈ (s.setInt i v).headerFile.map HEntry.key, k ∈ B ++ [v.id]) := by
  have hmB : ∀ k ∈ s.headerMap.map Prod.fst, k ∈ B ++ [v.id] :=
    fun k hk => List.mem_append_left _ (hm k hk)
  have hfB : ∀ k ∈ s.headerFile.map HEntry.key, k ∈ B ++ [v.id] :=
    fun k hk => List.mem_append_left _ (hf k hk)
  unfold DAM.setInt
  by_cases hi : i < s.headerMap.length
  · rw [if_pos hi]
    cases hl : int2strId s i with
    | none => exact ⟨hmB, hfB⟩
    | some strKey =>
      have hstrB : strKey ∈ B ++ [v.id] :=
        List.mem_append_left _ (hf strKey (int2strId_mem s i strKey hl))
      obtain ⟨ham, haf⟩ := append_keys_mem s v B hm hf
      have hself : dlookup (s.append v).headerMap v.id
          = some (⟨s.headerMap.length, Int.tdiv s.start PAGE * PAGE, s.start % PAGE,
              s.start % PAGE + ((encode v).length : Int)⟩ : MEntry) :=
        dlookup_dinsert_self _ _ _
      simp only [hself]
      have hm2 : ∀ k ∈ (dinsert (s.append v).headerMap strKey
          (⟨s.headerMap.length, Int.tdiv s.start PAGE * PAGE, s.start % PAGE,
            s.start % PAGE + ((encode v).length : Int)⟩ : MEntry)).map Prod.fst,
          k ∈ B ++ [v.id] := by
        intro k hk
        rcases dinsert_keys_mem _ _ _ _ hk with h1 | h1
        · exact ham k h1
        · exact h1 ▸ hstrB
      by_cases heq : strKey = v.id
      · rw [if_pos heq]
        exact ⟨hm2, haf⟩
      · rw [if_neg heq]
        exact delStr_keys _ v.id (B ++ [v.id]) hm2 haf
  · rw [if_neg hi]
    exact ⟨hmB, hfB⟩

/-- One public operation only introduces keys it appended. -/
theorem applyOp_keys (s : DAM) (op : Op) (A : List Key)
    (hm : ∀ k ∈ s.headerMap.map Prod.fst, k ∈ A)
    (hf : ∀ k ∈ s.headerFile.map HEntry.key, k ∈ A) :
    (∀ k ∈ (applyOp s op).headerMap.map Prod.fst, k ∈ A ++ keysOfOp op) ∧
    (∀ k ∈ (applyOp s op).headerFile.map HEntry.key, k ∈ A ++ keysOfOp op) := by
  have hA : ∀ k ∈ A, k ∈ A ++ keysOfOp op := fun k hk => List.mem_append_left _ hk
  cases op with
  | app d => exact append_keys_mem s d A hm hf
  | delS k0 =>
    obtain ⟨h1, h2⟩ := delStr_keys s k0 A hm hf
    exact ⟨fun k hk => hA k (h1 k hk), fun k hk => hA k (h2 k hk)⟩
  | delI i =>
    obtain ⟨h1, h2⟩ := delInt_keys s i A hm hf
    exact ⟨fun k hk => hA k (h1 k hk), fun k hk => hA k (h2 k hk)⟩
  | setI i d => exact setInt_keys s i d A hm hf
  | setS k0 d => exact append_keys_mem s { d with id := k0 } A hm hf
  | rel =>
    constructor
    · intro k hk
      rcases parseHeaderAux_keys s.headerFile 0 [] k hk with h1 | h1
      · cases h1
      · exact hA k (hf k h1)
    · exact fun k hk => hA k (hf k hk)
  | clr =>
    constructor
    · intro k hk
      exact absurd hk (List.not_mem_nil k)
    · intro k hk
      exact absurd hk (List.not_mem_nil k)

/-- Over any operation sequence, live keys stay within the keys ever appended. -/
theorem runOps_keys (ops : List Op) : ∀ (s : DAM) (A : List Key),
    (∀ k ∈ s.headerMap.map Prod.fst, k ∈ A) →
    (∀ k ∈ s.headerFile.map HEntry.key, k ∈ A) →
    ∀ k ∈ (runOps s ops).headerMap.map Prod.fst, k ∈ A ++ appendedKeys ops := by
  induction ops with
  | nil =>
    intro s A hm hf k hk
    rw [show appendedKeys [] = [] from rfl, List.append_nil]
    exact hm k hk
  | cons op ops ih =>
    intro s A hm hf k hk
    obtain ⟨h1, h2⟩ := applyOp_keys s op A hm hf
    have h3 := ih (applyOp s op) (A ++ keysOfOp op) h1 h2 k hk
    rw [show appendedKeys (op :: ops) = keysOfOp op ++ appendedKeys ops from rfl,
      ← List.append_assoc]
    exact h3

/-- C7: (frame) tombstoning a live key `k` leaves the body bytes and the write
cursor `_start` untouched; it removes `k` from the live map and rewrites
exactly the header slot recorded as `k`'s ordinal (`List.set` changes only
that slot).  (subset) Over every sequence of public operations from a fresh
store, each live key was the key of some appended record. -/
theorem c7_delete_frame_and_subset :
    (∀ (s : DAM) (k : Key) (me : MEntry), dlookup s.headerMap k = some me →
      (s.delStr k).body = s.body ∧ (s.delStr k).start = s.start ∧
      (s.delStr k).headerMap = derase s.headerMap k ∧
      (s.delStr k).headerFile = s.headerFile.set me.idx (tombstone k)) ∧
    (∀ (ops : List Op) (k : Key),
      k ∈ (runOps (mkDam ("store") 36) ops).headerMap.map Prod.fst →
      k ∈ appendedKeys ops) := by
  constructor
  · intro s k me hme
    unfold DAM.delStr
    rw [hme]
    exact ⟨rfl, rfl, rfl, rfl⟩
  · intro ops k hk
    have h := runOps_keys ops (mkDam ("store") 36) [] (by decide) (by decide) k hk
    simpa using h

/-! ## Compaction (C2) -/

theorem dlookup_mem {α : Type} (m : List (Key × α)) (k : Key) (v : α)
    (h : dlookup m k = some v) : (k, v) ∈ m := by
  induction m with
  | nil => cases h
  | cons kv t ih =>
    obtain ⟨k', v'⟩ := kv
    by_cases hk : k' = k
    · subst hk
      simp [dlookup] at h
      subst h
      exact List.mem_cons_self _ _
    · rw [dlookup_cons_ne _ _ _ _ hk] at h
      exact List.mem_cons_of_mem _ (ih h)

theorem dlookup_of_mem_nodup {α : Type} (m : List (Key × α)) (k : Key) (v : α)
    (hm : (k, v) ∈ m) (hnd : (m.map Prod.fst).Nodup) : dlookup m k = some v := by
  induction m with
  | nil => cases hm
  | cons kv t ih =>
    obtain ⟨k', v'⟩ := kv
    rcases List.mem_cons.mp hm with h | h
    · rw [Prod.mk.injEq] at h
      obtain ⟨h1, h2⟩ := h
      subst h1
      subst h2
      simp [dlookup]
    · have hk : k' ≠ k := by
        intro he
        subst he
        have hmem : k' ∈ t.map Prod.fst := List.mem_map.mpr ⟨(k', v), h, rfl⟩
        rw [List.map_cons, List.nodup_cons] at hnd
        exact hnd.1 hmem
      rw [dlookup_cons_ne _ _ _ _ hk]
      rw [List.map_cons, List.nodup_cons] at hnd
      exact ih h hnd.2

theorem filterMap_eq_map_of_forall {α β : Type} (l : List α) (g : α → Option β)
    (f : α → β) (h : ∀ x ∈ l, g x = some (f x)) : l.filterMap g = l.map f := by
  induction l with
  | nil => rfl
  | cons x t ih =>
    rw [List.filterMap_cons, h x (List.mem_cons_self x t), List.map_cons,
      ih (fun y hy => h y (List.mem_cons_of_mem _ hy))]

/-- Iterating a store whose buffer pool agrees with the durable read path and
whose live keys are distinct yields exactly the decoded body region of each
live map entry, in map order. -/
theorem iterDocs_wf (s : DAM)
    (hpool : ∀ kv ∈ s.pool, s.getDocByKey kv.1 = some kv.2)
    (hnd : (s.headerMap.map Prod.fst).Nodup) :
    s.iterDocs = s.headerMap.map
      (fun kv => decode (readRegion s.body kv.2.p kv.2.r kv.2.e)) := by
  apply filterMap_eq_map_of_forall
  intro kv hkv
  obtain ⟨k, me⟩ := kv
  have hlk : dlookup s.headerMap k = some me := dlookup_of_mem_nodup _ _ _ hkv hnd
  unfold DAM.getStr
  cases hp : dlookup s.pool k with
  | none =>
    unfold DAM.getDocByKey
    rw [hlk]
    rfl
  | some d =>
    have hd : s.getDocByKey k = some d := hpool (k, d) (dlookup_mem _ _ _ hp)
    unfold DAM.getDocByKey at hd
    rw [hlk] at hd
    have hde : d = decode (readRegion s.body me.p me.r me.e) := by
      simpa using hd.symm
    rw [hde]

theorem writeAt_append (b v : Bytes) : writeAt b ((b.length : Nat) : Int) v = b ++ v := by
  unfold writeAt
  rw [if_neg (by omega)]
  simp

/-- With in-bounds nonnegative offsets, a region read has length `end - start`. -/
theorem readRegion_length (b : Bytes) (p r e : Int) (hp : 0 ≤ p) (hr : 0 ≤ r)
    (hre : r ≤ e) (hb : (p + e).toNat ≤ b.length) :
    (readRegion b p r e).length = (e - r).toNat := by
  unfold readRegion
  rw [List.length_drop, List.length_take]
  omega

theorem assocFrom_keys (file : List HEntry) : ∀ (idx : Nat),
    (assocFrom idx file).map Prod.fst = file.map HEntry.key := by
  induction file with
  | nil => intro idx; rfl
  | cons h t ih =>
    intro idx
    show h.key :: (assocFrom (idx + 1) t).map Prod.fst = _
    rw [ih, List.map_cons]

theorem assocFrom_length (file : List HEntry) : ∀ (idx : Nat),
    (assocFrom idx file).length = file.length := by
  induction file with
  | nil => intro idx; rfl
  | cons h t ih =>
    intro idx
    show (assocFrom (idx + 1) t).length + 1 = t.length + 1
    rw [ih]

theorem assocFrom_append (file : List HEntry) (he : HEntry) : ∀ (idx : Nat),
    assocFrom idx (file ++ [he])
      = assocFrom idx file ++ [(he.key, ⟨idx + file.length, he.p, he.r, he.e⟩)] := by
  induction file with
  | nil => intro idx; simp [assocFrom]
  | cons h t ih =>
    intro idx
    rw [List.cons_append]
    show (h.key, (⟨idx, h.p, h.r, h.e⟩ : MEntry)) :: assocFrom (idx + 1) (t ++ [he]) = _
    rw [ih (idx + 1)]
    show _ = ((h.key, (⟨idx, h.p, h.r, h.e⟩ : MEntry)) :: assocFrom (idx + 1) t)
        ++ [(he.key, ⟨idx + (t.length + 1), he.p, he.r, he.e⟩)]
    rw [List.cons_append]
    have : idx + 1 + t.length = idx + (t.length + 1) := by omega
    rw [this]

theorem parseHeaderAux_eq_assoc (file : List HEntry) : ∀ (idx : Nat)
    (m : List (Key × MEntry)),
    (∀ h ∈ file, h.isNone = false) →
    ((file.map HEntry.key).Nodup) →
    (∀ k ∈ file.map HEntry.key, k ∉ m.map Prod.fst) →
    parseHeaderAux idx m file = m ++ assocFrom idx file := by
  induction file with
  | nil =>
    intro idx m _ _ _
    show m = m ++ []
    rw [List.append_nil]
  | cons h t ih =>
    intro idx m hnt hnd hdisj
    have hno : h.isNone = false := hnt h (List.mem_cons_self _ _)
    have hcond : ¬(h.isNone = true) := by simp [hno]
    have hstep : parseHeaderAux idx m (h :: t)
        = parseHeaderAux (idx + 1)
          (if h.isNone then m else dinsert m h.key ⟨idx, h.p, h.r, h.e⟩) t := rfl
    rw [hstep, if_neg hcond]
    have hkm : h.key ∉ m.map Prod.fst :=
      hdisj h.key (by rw [List.map_cons]; exact List.mem_cons_self _ _)
    have hnone : dlookup m h.key = none := (dlookup_eq_none _ _).mpr hkm
    have hdin : dinsert m h.key ⟨idx, h.p, h.r, h.e⟩
        = m ++ [(h.key, ⟨idx, h.p, h.r, h.e⟩)] := by
      unfold dinsert
      rw [if_neg (by simp [hnone])]
    rw [List.map_cons, List.nodup_cons] at hnd
    rw [hdin, ih (idx + 1) _ (fun h' hh => hnt h' (List.mem_cons_of_mem _ hh)) hnd.2 ?_,
      List.append_assoc]
    · rfl
    · intro k hk hc
      rw [List.map_append, List.mem_append] at hc
      rcases hc with hc | hc
      · exact hdisj k (by rw [List.map_cons]; exact List.mem_cons_of_mem _ hk) hc
      · simp only [List.map_cons, List.map_nil, List.mem_singleton] at hc
        subst hc
        exact hnd.1 hk

theorem parseHeader_eq (file : List HEntry)
    (hnt : ∀ h ∈ file, h.isNone = false)
    (hnd : (file.map HEntry.key).Nodup) :
    parseHeader file = assocOfFile file := by
  unfold parseHeader assocOfFile
  rw [parseHeaderAux_eq_assoc file 0 [] hnt hnd (by simp)]
  rfl

/-- Extending a consistently laid-out store (map = positional view of the
file, cursor at end of body, no tombstones, distinct keys) with records of
fresh distinct keys appends one live header entry and one payload per record,
back to back from the current end of the body. -/
theorem extend_chain (D : List Document) : ∀ (t : DAM),
    t.headerMap = assocOfFile t.headerFile →
    t.start = ((t.body.length : Nat) : Int) →
    t.cursor = ((t.body.length : Nat) : Int) →
    (t.headerFile.map HEntry.key).Nodup →
    (∀ d ∈ D, d.id ∉ t.headerFile.map HEntry.key) →
    (D.map Document.id).Nodup →
    (∀ h ∈ t.headerFile, h.isNone = false) →
    (t.extend D).headerMap = assocOfFile (t.extend D).headerFile ∧
    (t.extend D).start = (((t.extend D).body.length : Nat) : Int) ∧
    (t.extend D).cursor = (((t.extend D).body.length : Nat) : Int) ∧
    (t.extend D).headerFile.map HEntry.key
      = t.headerFile.map HEntry.key ++ D.map Document.id ∧
    (∀ h ∈ (t.extend D).headerFile, h.isNone = false) ∧
    (∃ fr, (t.extend D).headerFile = t.headerFile ++ fr) ∧
    (∃ br, (t.extend D).body = t.body ++ br) ∧
    (t.extend D).body.length
      = t.body.length + (D.map (fun d => (encode d).length)).sum ∧
    ChainFrom (t.extend D).body t.body.length
      ((t.extend D).headerFile.drop t.headerFile.length) D := by
  induction D with
  | nil =>
    intro t hmap hst hcu hnd hfresh hDnd hnt
    refine ⟨hmap, hst, hcu, by simp [DAM.extend], hnt, ⟨[], by simp [DAM.extend]⟩,
      ⟨[], by simp [DAM.extend]⟩, by simp [DAM.extend], ?_⟩
    show ChainFrom t.body t.body.length (t.headerFile.drop t.headerFile.length) []
    rw [List.drop_length]
    trivial
  | cons d ds ih =>
    intro t hmap hst hcu hnd hfresh hDnd hnt
    have hDnd2 : d.id ∉ ds.map Document.id ∧ (ds.map Document.id).Nodup :=
      List.nodup_cons.mp (by rw [List.map_cons] at hDnd; exact hDnd)
    have h0 : (0 : Int) ≤ t.start := by
      rw [hst]
      exact Int.natCast_nonneg _
    have hp : (0 : Int) ≤ Int.tdiv t.start PAGE * PAGE := by
      rw [hst]
      rw [show Int.tdiv ((t.body.length : Nat) : Int) PAGE
          = ((t.body.length / 4096 : Nat) : Int) from (Int.ofNat_tdiv _ _).symm,
        show PAGE = (4096 : Int) from rfl]
      positivity
    have hr : (0 : Int) ≤ t.start % PAGE := Int.emod_nonneg _ (by decide)
    have hpr : Int.tdiv t.start PAGE * PAGE + t.start % PAGE = t.start :=
      tdiv_emod_decomp _ h0
    set heD : HEntry := ⟨d.id, Int.tdiv t.start PAGE * PAGE, t.start % PAGE,
      t.start % PAGE + ((encode d).length : Int)⟩ with hheD
    have ht1file : (t.append d).headerFile = t.headerFile ++ [heD] := rfl
    have ht1body : (t.append d).body = t.body ++ encode d := by
      show writeAt t.body t.cursor (encode d) = _
      rw [hcu]
      exact writeAt_append _ _
    have ht1bodyLen : (t.append d).body.length = t.body.length + (encode d).length := by
      rw [ht1body]
      simp
    have ht1start : (t.append d).start
        = ((t.body.length + (encode d).length : Nat) : Int) := by
      show Int.tdiv t.start PAGE * PAGE + t.start % PAGE + ((encode d).length : Int) = _
      rw [hpr, hst]
      push_cast
      ring
    have ht1cursor : (t.append d).cursor
        = ((t.body.length + (encode d).length : Nat) : Int) := by
      show t.cursor + ((encode d).length : Int) = _
      rw [hcu]
      push_cast
      ring
    have hkeysmap : t.headerMap.map Prod.fst = t.headerFile.map HEntry.key := by
      rw [hmap]
      exact assocFrom_keys _ 0
    have hdidnone : dlookup t.headerMap d.id = none :=
      (dlookup_eq_none _ _).mpr
        (by rw [hkeysmap]; exact hfresh d (List.mem_cons_self _ _))
    have hmaplen : t.headerMap.length = t.headerFile.length := by
      rw [hmap]
      exact assocFrom_length _ 0
    have ht1map : (t.append d).headerMap = assocOfFile (t.append d).headerFile := by
      show dinsert t.headerMap d.id ⟨t.headerMap.length, Int.tdiv t.start PAGE * PAGE,
        t.start % PAGE, t.start % PAGE + ((encode d).length : Int)⟩ = _
      unfold dinsert
      rw [if_neg (by simp [hdidnone]), hmaplen, hmap, ht1file]
      show assocOfFile t.headerFile ++ [(d.id, ⟨t.headerFile.length, heD.p, heD.r, heD.e⟩)]
          = assocOfFile (t.headerFile ++ [heD])
      unfold assocOfFile
      rw [assocFrom_append t.headerFile heD 0]
      simp [hheD]
    have ht1nd : ((t.append d).headerFile.map HEntry.key).Nodup := by
      rw [ht1file, List.map_append]
      refine List.Nodup.append hnd (by simp) ?_
      intro k hk1 hk2
      simp only [List.map_cons, List.map_nil, List.mem_singleton] at hk2
      rw [hk2] at hk1
      exact hfresh d (List.mem_cons_self _ _) hk1
    have hfresh1 : ∀ d' ∈ ds, d'.id ∉ (t.append d).headerFile.map HEntry.key := by
      intro d' hd' hc
      rw [ht1file, List.map_append] at hc
      rcases List.mem_append.mp hc with hc | hc
      · exact hfresh d' (List.mem_cons_of_mem _ hd') hc
      · simp only [List.map_cons, List.map_nil, List.mem_singleton] at hc
        exact hDnd2.1 (hc ▸ List.mem_map.mpr ⟨d', hd', rfl⟩)
    have hnt1 : ∀ h' ∈ (t.append d).headerFile, h'.isNone = false := by
      intro h' hh
      rw [ht1file] at hh
      rcases List.mem_append.mp hh with hh | hh
      · exact hnt h' hh
      · simp only [List.mem_singleton] at hh
        subst hh
        have hne : Int.tdiv t.start PAGE * PAGE ≠ -1 := fun heq => by
          rw [heq] at hp
          exact absurd hp (by decide)
        simp [hheD, HEntry.isNone, hne]
    obtain ⟨m1, s1, c1, k1, nt1, ⟨fr1, hfr1⟩, ⟨br1, hbr1⟩, bl1, ch1⟩ :=
      ih (t.append d) ht1map (by rw [ht1start, ht1bodyLen])
        (by rw [ht1cursor, ht1bodyLen]) ht1nd hfresh1 hDnd2.2 hnt1
    have hdrop : ((t.append d).extend ds).headerFile.drop t.headerFile.length
        = heD :: fr1 := by
      rw [hfr1, ht1file, List.append_assoc]
      exact List.drop_left _ _
    have hdrop1 : ((t.append d).extend ds).headerFile.drop
        (t.append d).headerFile.length = fr1 := by
      rw [hfr1]
      exact List.drop_left _ _
    refine ⟨m1, s1, c1, ?_, nt1, ?_, ?_, ?_, ?_⟩
    · rw [show (t.extend (d :: ds)).headerFile = ((t.append d).extend ds).headerFile
        from rfl, k1, ht1file, List.map_append, List.append_assoc]
      rfl
    · exact ⟨heD :: fr1, by rw [show (t.extend (d :: ds)).headerFile
        = ((t.append d).extend ds).headerFile from rfl, hfr1, ht1file,
        List.append_assoc]; rfl⟩
    · exact ⟨encode d ++ br1, by rw [show (t.extend (d :: ds)).body
        = ((t.append d).extend ds).body from rfl, hbr1, ht1body,
        List.append_assoc]⟩
    · rw [show (t.extend (d :: ds)).body = ((t.append d).extend ds).body from rfl,
        bl1, ht1bodyLen, List.map_cons, List.sum_cons]
      omega
    · rw [show (t.extend (d :: ds)).headerFile = ((t.append d).extend ds).headerFile
        from rfl, show (t.extend (d :: ds)).body = ((t.append d).extend ds).body
        from rfl, hdrop]
      show ChainFrom ((t.append d).extend ds).body t.body.length (heD :: fr1) (d :: ds)
      refine ⟨rfl, hp, hr, by rw [hpr, hst], rfl, ?_, ?_⟩
      · show readRegion ((t.append d).extend ds).body heD.p heD.r heD.e = encode d
        unfold readRegion
        have hpe : (heD.p + heD.e).toNat = t.body.length + (encode d).length := by
          show (Int.tdiv t.start PAGE * PAGE
            + (t.start % PAGE + ((encode d).length : Int))).toNat = _
          rw [← add_assoc, hpr, hst]
          omega
        have hprn : (heD.p + heD.r).toNat = t.body.length := by
          show (Int.tdiv t.start PAGE * PAGE + t.start % PAGE).toNat = _
          rw [hpr, hst]
          omega
        rw [hpe, hprn, hbr1, ht1body]
        have htake : ((t.body ++ encode d) ++ br1).take
            (t.body.length + (encode d).length) = t.body ++ encode d := by
          rw [show t.body.length + (encode d).length = (t.body ++ encode d).length
            by simp]
          exact List.take_left _ _
        rw [htake]
        exact List.drop_left _ _
      · rw [ht1bodyLen] at ch1
        rw [hdrop1] at ch1
        exact ch1

/-- Reading back a chain of entries yields the original records' pairs. -/
theorem chain_pairs (body : Bytes) (file : List HEntry) : ∀ (off : Nat)
    (D : List Document) (idx : Nat),
    ChainFrom body off file D →
    (assocFrom idx file).map (fun kv =>
        ((decode (readRegion body kv.2.p kv.2.r kv.2.e)).id,
         (decode (readRegion body kv.2.p kv.2.r kv.2.e)).content))
      = D.map (fun d => (d.id, d.content)) := by
  induction file with
  | nil =>
    intro off D idx hch
    cases D with
    | nil => rfl
    | cons d ds => exact hch.elim
  | cons h hs ih =>
    intro off D idx hch
    cases D with
    | nil => exact hch.elim
    | cons d ds =>
      obtain ⟨hkey, hp0, hr0, hpr0, he0, hread, hrec⟩ := hch
      show ((decode (readRegion body h.p h.r h.e)).id,
            (decode (readRegion body h.p h.r h.e)).content)
          :: (assocFrom (idx + 1) hs).map _ = _
      rw [hread, decode_encode, List.map_cons,
        ih (off + (encode d).length) ds (idx + 1) hrec]

/-- C2 counterexample: starting from live keys `[10]` and `[12]`, two
`__setitem__`-by-ordinal calls (`docB1`, `docB2`, both with key `[20]`) leave
two live entries whose payloads both decode to key `[20]`.  Iterating yields
both `([20], [1])` and `([20], [2])`; but `prune` re-appends the records under
their decoded keys, so the second overwrites the first in the fresh store's
map and the pair `([20], [1])` is no longer observable after compaction. -/
theorem c2_prune_preserves_counterexample :
    (docB1.id, docB1.content) ∈ c2S.iterPairs ∧
    (docB1.id, docB1.content) ∉ (c2S.prune).iterPairs := by decide

/-- C2 (amended): for every consistent store (`WF`: each live entry's region
is in bounds, is a codec image, and decodes to a record whose key equals the
live key; the pool agrees with disk; regions fit in the body; at least as many
header slots as live entries; distinct live keys — all of which hold for
stores built by appends and deletions alone), the list of `(key, payload)`
pairs observed by iterating is identical before and after `prune()`, and the
on-disk size (header plus body bytes) after `prune()` is at most the size
before.  Stores re-keyed by `__setitem__`-by-ordinal can violate `WF` and
lose pairs (see the counterexample). -/
theorem c2_prune_preserves_amended (s : DAM) (h : WF s) :
    (s.prune).iterPairs = s.iterPairs ∧ (s.prune).diskBytes ≤ s.diskBytes := by
  obtain ⟨hok, hpool, hsum, hlen, hnd⟩ := h
  have hiter : s.iterDocs = s.headerMap.map
      (fun kv => decode (readRegion s.body kv.2.p kv.2.r kv.2.e)) :=
    iterDocs_wf s hpool hnd
  have hids : s.iterDocs.map Document.id = s.headerMap.map Prod.fst := by
    rw [hiter, List.map_map]
    apply List.map_congr_left
    intro kv hkv
    exact (hok kv hkv).2.2.2.2.2
  have hDnd : (s.iterDocs.map Document.id).Nodup := by
    rw [hids]
    exact hnd
  obtain ⟨hmapR, hstR, hcuR, hkeysR, hntR, ⟨fr, hfr⟩, ⟨br, hbr⟩, hblen, hchain⟩ :=
    extend_chain s.iterDocs (mkDam ("tmp") s.keyLength) rfl rfl rfl
      List.nodup_nil (fun d hd hc => absurd hc (List.not_mem_nil _)) hDnd
      (fun h' hh => absurd hh (List.not_mem_nil _))
  set dam := (mkDam ("tmp") s.keyLength).extend s.iterDocs with hdam
  have hPmap : (s.prune).headerMap = parseHeader dam.headerFile := rfl
  have hPpool : (s.prune).pool = [] := rfl
  have hkeys' : dam.headerFile.map HEntry.key = s.iterDocs.map Document.id := by
    simpa using hkeysR
  have hfilend : (dam.headerFile.map HEntry.key).Nodup := by
    rw [hkeys']
    exact hDnd
  have hparse : parseHeader dam.headerFile = assocOfFile dam.headerFile :=
    parseHeader_eq _ hntR hfilend
  have hPnd : ((s.prune).headerMap.map Prod.fst).Nodup := by
    rw [hPmap, hparse, show (assocOfFile dam.headerFile).map Prod.fst
      = dam.headerFile.map HEntry.key from assocFrom_keys _ 0]
    exact hfilend
  have hPiterDocs : (s.prune).iterDocs = (s.prune).headerMap.map
      (fun kv => decode (readRegion (s.prune).body kv.2.p kv.2.r kv.2.e)) :=
    iterDocs_wf (s.prune)
      (fun kv hkv => absurd (hPpool ▸ hkv) (List.not_mem_nil _)) hPnd
  have hchain0 : ChainFrom dam.body 0 dam.headerFile s.iterDocs := by
    simpa using hchain
  have hPpairs : (s.prune).iterPairs
      = s.iterDocs.map (fun d => (d.id, d.content)) := by
    unfold DAM.iterPairs
    rw [hPiterDocs, List.map_map, hPmap, hparse,
      show (s.prune).body = dam.body from rfl]
    exact chain_pairs dam.body dam.headerFile 0 s.iterDocs 0 hchain0
  constructor
  · rw [hPpairs]
    rfl
  · have hDlen : s.iterDocs.length = s.headerMap.length := by
      rw [hiter, List.length_map]
    have hfileLen : dam.headerFile.length = s.iterDocs.length := by
      have hc := congrArg List.length hkeys'
      simpa using hc
    have hblen' : dam.body.length
        = (s.iterDocs.map (fun d => (encode d).length)).sum := by
      have h0 : (mkDam ("tmp") s.keyLength).body.length = 0 := rfl
      have hc := hblen
      rw [h0, Nat.zero_add] at hc
      exact hc
    have hsum_eq : (s.iterDocs.map (fun d => (encode d).length)).sum
        = (s.headerMap.map (fun kv => (kv.2.e - kv.2.r).toNat)).sum := by
      rw [hiter, List.map_map]
      congr 1
      apply List.map_congr_left
      intro kv hkv
      obtain ⟨h1, h2, h3, h4, h5, h6⟩ := hok kv hkv
      show (encode (decode (readRegion s.body kv.2.p kv.2.r kv.2.e))).length = _
      rw [h5]
      exact readRegion_length _ _ _ _ h1 h2 h3 h4
    unfold DAM.diskBytes DAM.entrySize
    rw [show (s.prune).headerFile = dam.headerFile from rfl,
      show (s.prune).body = dam.body from rfl,
      show (s.prune).keyLength = s.keyLength from rfl]
    have hh : dam.headerFile.length ≤ s.headerFile.length := by
      rw [hfileLen, hDlen]
      exact hlen
    have hb : dam.body.length ≤ s.body.length := by
      rw [hblen', hsum_eq]
      exact hsum
    exact Nat.add_le_add (Nat.mul_le_mul_right _ hh) hb

theorem c2_prune_witness :
    WF c2W ∧
    ((c2W.prune).iterPairs = c2W.iterPairs ∧ (c2W.prune).diskBytes ≤ c2W.diskBytes) :=
  ⟨by decide, c2_prune_preserves_amended c2W (by decide)⟩

theorem c7_delete_frame_witness :
    dlookup exAC.headerMap docA.id = some ⟨0, 0, 0, 5⟩ ∧
    ((exAC.delStr docA.id).body = exAC.body ∧
     (exAC.delStr docA.id).start = exAC.start ∧
     (exAC.delStr docA.id).headerMap = derase exAC.headerMap docA.id ∧
     (exAC.delStr docA.id).headerFile = exAC.headerFile.set 0 (tombstone docA.id)) ∧
    docA.id ∈ (runOps (mkDam ("store") 36) [Op.app docA]).headerMap.map Prod.fst ∧
    docA.id ∈ appendedKeys [Op.app docA] :=
  ⟨by decide,
   c7_delete_frame_and_subset.1 exAC docA.id ⟨0, 0, 0, 5⟩ (by decide),
   by decide,
   c7_delete_frame_and_subset.2 [Op.app docA] docA.id (by decide)⟩

end Memmap
